import Mathlib

/-!
Verification of the search/crawl/summarize pipeline (`src/routes/api/ddg.ts`
and the robots.txt checker in `src/types/cloudflare-env.d.ts`).

The TypeScript source is shallowly embedded: strings are Lean `String`s (JS
string operations are modelled on the underlying character lists), the
classification and budgeting routines become pure Lean functions, and the
concurrent worker pool becomes a small-step transition relation.
-/

set_option maxRecDepth 100000

namespace DdgPipeline

/-! ## Basic character-list utilities shared by the embeddings -/

/-- JS whitespace test used by `String.prototype.trim`. -/
def isWsChar (c : Char) : Bool := c.isWhitespace

/-- ASCII lowercasing of a character list (JS `toLowerCase`, ASCII fragment). -/
def toLowerList (l : List Char) : List Char := l.map Char.toLower

/-- Does `pat` occur at the very start of `l` (JS `startsWith`)? -/
def leadsWith : List Char → List Char → Bool
  | [], _ => true
  | _ :: _, [] => false
  | p :: ps, c :: cs => p == c && leadsWith ps cs

/-- Does `pat` occur anywhere inside `l` (JS `includes` / regex literal search)? -/
def occursIn (pat : List Char) : List Char → Bool
  | [] => leadsWith pat []
  | c :: rest => leadsWith pat (c :: rest) || occursIn pat rest

/-- JS `s.slice(0, n)` on a string, modelled on the character list. -/
def jsSlice (s : String) (n : Nat) : String := String.mk (s.toList.take n)

/-- JS `s.trim()`: drop whitespace from both ends. -/
def jsTrim (s : String) : String :=
  String.mk (((s.toList.dropWhile isWsChar).reverse.dropWhile isWsChar).reverse)

theorem leadsWith_self_append (pat rest : List Char) :
    leadsWith pat (pat ++ rest) = true := by
  induction pat with
  | nil => rfl
  | cons p ps ih => simp [leadsWith, ih]

theorem occursIn_append_of_leadsWith (pre l pat : List Char)
    (h : leadsWith pat l = true) : occursIn pat (pre ++ l) = true := by
  induction pre with
  | nil =>
    cases l with
    | nil => simpa [occursIn] using h
    | cons c rest => simp [occursIn, h]
  | cons c rest ih =>
    simp [occursIn, ih]

/-- String append is concatenation of the character lists. -/
theorem string_data_append (a b : String) : (a ++ b).toList = a.toList ++ b.toList := rfl

theorem string_length_mk (l : List Char) : (String.mk l).length = l.length := rfl

theorem string_toList_mk (l : List Char) : (String.mk l).toList = l := rfl

/-! ## C1 — AggregationBudgeter

Embedding of the multi-source input builder in the summarization step of
`ddg.ts`: the per-source snippet construction (`perSourceLimit` slice) and
the greedy budget loop building `combined` / `usedUrls`.
-/

/-- `const perSourceLimit = 20_000; // chars per source`. -/
def perSourceLimit : Nat := 20000

/-- `const maxTotal = 120_000; // overall cap`. -/
def maxTotal : Nat := 120000

/-- One entry of `sourceTexts`. -/
structure SourceText where
  url : String
  text : String

/-- The per-source snippet:
`` `${title ? `Title: ${title}\n\n` : ""}${rawText}`.slice(0, perSourceLimit) ``. -/
def mkSnippet (title rawText : String) : String :=
  jsSlice ((if title ≠ "" then "Title: " ++ title ++ "\n\n" else "") ++ rawText) perSourceLimit

/-- `const nextChunk = `\n\n[Source: ${s.url}]\n${s.text}``. -/
def sourceBlock (s : SourceText) : String := "\n\n[Source: " ++ s.url ++ "]\n" ++ s.text

/-- The greedy budget loop of the aggregation step:
```
let combined = ""; const usedUrls = [];
for (const s of sourceTexts) {
  const nextChunk = ...;
  if (combined.length + nextChunk.length > maxTotal) break;
  combined += nextChunk; usedUrls.push(s.url);
}
```
written as structural recursion carrying the accumulated `combined`. -/
def combineSources : List SourceText → String → String × List String
  | [], combined => (combined, [])
  | s :: rest, combined =>
    if combined.length + (sourceBlock s).length > maxTotal then (combined, [])
    else
      let r := combineSources rest (combined ++ sourceBlock s)
      (r.1, s.url :: r.2)

/-- The aggregation output `(combined, usedUrls)` starting from the empty string. -/
def aggregate (srcs : List SourceText) : String × List String := combineSources srcs ""

/-- Concatenation of the source blocks of a list, in order. -/
def concatBlocks : List SourceText → String
  | [] => ""
  | s :: rest => sourceBlock s ++ concatBlocks rest

theorem combineSources_length_le (srcs : List SourceText) (combined : String)
    (h : combined.length ≤ maxTotal) :
    (combineSources srcs combined).1.length ≤ maxTotal := by
  induction srcs generalizing combined with
  | nil => simpa [combineSources] using h
  | cons s rest ih =>
    by_cases hb : combined.length + (sourceBlock s).length > maxTotal
    · simpa [combineSources, hb] using h
    · simp only [combineSources, hb, if_false]
      exact ih _ (by rw [String.length_append]; omega)

theorem combineSources_spec (srcs : List SourceText) (combined : String) :
    ∃ k, k ≤ srcs.length ∧
      (combineSources srcs combined).2 = (srcs.take k).map SourceText.url ∧
      (combineSources srcs combined).1 = combined ++ concatBlocks (srcs.take k) ∧
      ∀ s, (srcs.drop k).head? = some s →
        (combineSources srcs combined).1.length + (sourceBlock s).length > maxTotal := by
  induction srcs generalizing combined with
  | nil =>
    refine ⟨0, by simp, by simp [combineSources], ?_, by simp⟩
    simp [combineSources, concatBlocks]
  | cons s rest ih =>
    by_cases hb : combined.length + (sourceBlock s).length > maxTotal
    · refine ⟨0, by simp, by simp [combineSources, hb], ?_, ?_⟩
      · simp [combineSources, hb, concatBlocks]
      · intro t ht
        simp only [List.drop_zero, List.head?_cons, Option.some.injEq] at ht
        subst ht
        simp [combineSources, hb]
    · obtain ⟨k, hk, h2, h1, hstop⟩ := ih (combined ++ sourceBlock s)
      refine ⟨k + 1, by simpa using hk, ?_, ?_, ?_⟩
      · simp [combineSources, hb, h2]
      · simp only [combineSources, hb, if_false, List.take_succ_cons, concatBlocks]
        rw [h1, String.append_assoc]
      · intro t ht
        simp only [List.drop_succ_cons] at ht
        simpa [combineSources, hb] using hstop t ht

/-- C1: for every input list of sources, the aggregation output keeps the
combined text within `maxTotal` (120 000 characters); every per-source
snippet is at most `perSourceLimit` (20 000) characters; and `usedUrls` is
exactly the prefix of the sources that got appended — the combined text is
the concatenation of exactly that prefix's blocks, and appending stopped
(without truncation) precisely because the next block would overflow the
total budget. -/
theorem spec_c1_aggregation_budget (srcs : List SourceText) :
    (aggregate srcs).1.length ≤ maxTotal ∧
    (∀ title rawText, (mkSnippet title rawText).length ≤ perSourceLimit) ∧
    ∃ k, k ≤ srcs.length ∧
      (aggregate srcs).2 = (srcs.take k).map SourceText.url ∧
      (aggregate srcs).1 = concatBlocks (srcs.take k) ∧
      ∀ s, (srcs.drop k).head? = some s →
        (aggregate srcs).1.length + (sourceBlock s).length > maxTotal := by
  refine ⟨combineSources_length_le srcs "" (by simp [maxTotal]), ?_, ?_⟩
  · intro title rawText
    show ((((if title ≠ "" then "Title: " ++ title ++ "\n\n" else "") ++
        rawText).toList).take perSourceLimit).length ≤ perSourceLimit
    rw [List.length_take]
    omega
  · obtain ⟨k, hk, h2, h1, hstop⟩ := combineSources_spec srcs ""
    exact ⟨k, hk, h2, by simpa using h1, hstop⟩

/-! ## C10 — query `+` replacement

`const query = (url.searchParams.get("q") ?? "").trim();`
`const normalizedQuery = query.replace(/\+/g, " ");`
-/

/-- JS `query.replace(/\+/g, " ")`: every `'+'` becomes a space. -/
def replacePlusAll : List Char → List Char
  | [] => []
  | c :: rest => (if c = '+' then ' ' else c) :: replacePlusAll rest

/-- `const normalizedQuery = query.replace(/\+/g, " ")`. -/
def normalizedQuery (query : String) : String := String.mk (replacePlusAll query.toList)

theorem replacePlusAll_eq_map (l : List Char) :
    replacePlusAll l = l.map (fun c => if c = '+' then ' ' else c) := by
  induction l with
  | nil => rfl
  | cons c rest ih => simp [replacePlusAll, ih]

theorem plus_not_mem_replacePlusAll (l : List Char) : '+' ∉ replacePlusAll l := by
  induction l with
  | nil => simp [replacePlusAll]
  | cons c rest ih =>
    simp only [replacePlusAll, List.mem_cons, not_or]
    refine ⟨?_, ih⟩
    by_cases hc : c = '+'
    · simp [hc]
    · simp only [hc, if_false]
      exact fun h => hc h.symm

theorem replacePlusAll_of_not_mem (l : List Char) (h : '+' ∉ l) : replacePlusAll l = l := by
  induction l with
  | nil => rfl
  | cons c rest ih =>
    simp only [List.mem_cons, not_or] at h
    rw [replacePlusAll, if_neg (fun hc => h.1 hc.symm), ih h.2]

/-- C10: the handler searches on `normalizedQuery (jsTrim raw)`.  Trimmed
queries without a `'+'` pass through verbatim; a trimmed query containing a
literal `'+'` is modified (every `'+'` becomes a space, so none survives).  -/
theorem spec_c10_plus_replacement (raw : String) :
    ('+' ∉ (jsTrim raw).toList → normalizedQuery (jsTrim raw) = jsTrim raw) ∧
    ('+' ∈ (jsTrim raw).toList → normalizedQuery (jsTrim raw) ≠ jsTrim raw) ∧
    (normalizedQuery (jsTrim raw)).toList =
      (jsTrim raw).toList.map (fun c => if c = '+' then ' ' else c) ∧
    '+' ∉ (normalizedQuery (jsTrim raw)).toList := by
  refine ⟨?_, ?_, ?_, ?_⟩
  · intro h
    show String.mk (replacePlusAll (jsTrim raw).toList) = jsTrim raw
    rw [replacePlusAll_of_not_mem _ h]
    rfl
  · intro h heq
    have hl : (normalizedQuery (jsTrim raw)).toList = (jsTrim raw).toList :=
      congrArg String.toList heq
    have hl2 : replacePlusAll (jsTrim raw).toList = (jsTrim raw).toList := hl
    exact plus_not_mem_replacePlusAll _ (hl2 ▸ h)
  · show replacePlusAll (jsTrim raw).toList = _
    rw [replacePlusAll_eq_map]
  · show '+' ∉ replacePlusAll (jsTrim raw).toList
    exact plus_not_mem_replacePlusAll _

/-! ## C2, C3 — ContentAdmissionGate

Embedding of the admission decision in the candidate worker:
```
const looksLikeParkedOrAd =
  candidateHtml.length < 400 || /adsense\/domains\/caf\.js/i.test(candidateHtml);
if (looksLikeParkedOrAd || isCloudflareChallenge(candidateHtml)) {
  ... skipped, reason looksLikeParkedOrAd ? "parked_or_ad" : "cloudflare_challenge"
}
```
The case-insensitive regexes are modelled by matching on the lowercased
character list; `\b` is a word/non-word boundary, `\w` is `[A-Za-z0-9_]`,
`\s` is whitespace.
-/

/-- Regex word character `\w`. -/
def isWordCh (c : Char) : Bool := c.isAlpha || c.isDigit || c = '_'

/-- Strip a literal pattern from the front of a list, returning the remainder. -/
def stripLit : List Char → List Char → Option (List Char)
  | [], l => some l
  | _ :: _, [] => none
  | p :: ps, c :: cs => if c = p then stripLit ps cs else none

/-- Match `cf-chl-\w+` at the current position (lowercased text). -/
def cfChlAt (l : List Char) : Bool :=
  match stripLit "cf-chl-".toList l with
  | some (c :: _) => isWordCh c
  | _ => false

/-- Match `cray\b` at the current position (lowercased `\bcRay\b`). -/
def cRayAt (l : List Char) : Bool :=
  match stripLit "cray".toList l with
  | some [] => true
  | some (c :: _) => !isWordCh c
  | none => false

/-- Scan all positions whose preceding character is not a word character
(the `\b` context for a pattern starting with a word character); the flag
carries whether the previous character was a word character. -/
def scanBdry (p : List Char → Bool) : Bool → List Char → Bool
  | _, [] => false
  | prevW, c :: rest => (!prevW && p (c :: rest)) || scanBdry p (isWordCh c) rest

/-- Match `attention required!\s*\|\s*cloudflare` at the current position. -/
def attentionAt (l : List Char) : Bool :=
  match stripLit "attention required!".toList l with
  | some rest =>
    match rest.dropWhile isWsChar with
    | '|' :: rest2 => leadsWith "cloudflare".toList (rest2.dropWhile isWsChar)
    | _ => false
  | none => false

/-- Try a position matcher at every position of the list. -/
def anyPos (p : List Char → Bool) : List Char → Bool
  | [] => p []
  | c :: rest => p (c :: rest) || anyPos p rest

/-- The nine challenge signals of `isCloudflareChallenge`, tested against the
(lowercased) text; the `(JavaScript|cookies)` alternation is expanded. -/
def challengeSignals (t : List Char) : Bool :=
  occursIn "cdn-cgi/challenge-platform/".toList t ||
  scanBdry cfChlAt false t ||
  scanBdry cRayAt false t ||
  occursIn "just a moment...".toList t ||
  anyPos attentionAt t ||
  occursIn "ddos protection by cloudflare".toList t ||
  occursIn "enable javascript and try again".toList t ||
  occursIn "enable cookies and try again".toList t ||
  occursIn "rocket loader is loading your page".toList t ||
  occursIn "/cdn-cgi/l/chk_jschl".toList t

/-- `isCloudflareChallenge`: the signals are checked only against
`html.slice(0, 200_000)`. -/
def isCloudflareChallenge (html : String) : Bool :=
  challengeSignals (toLowerList (html.toList.take 200000))

/-- The ad-placeholder signature `/adsense\/domains\/caf\.js/i.test(html)`. -/
def adPlaceholderSig (html : String) : Bool :=
  occursIn "adsense/domains/caf.js".toList (toLowerList html.toList)

/-- `candidateHtml.length < 400 || /adsense\/domains\/caf\.js/i.test(candidateHtml)`. -/
def looksLikeParkedOrAd (html : String) : Bool :=
  decide (html.length < 400) || adPlaceholderSig html

/-- The skip decision of the worker, with its reason. -/
inductive AdmissionVerdict where
  | admitted
  | rejectedParkedOrAd
  | rejectedChallenge
deriving DecidableEq

/-- The admission gate: parked-or-ad takes precedence in the skip-reason
ternary, then the Cloudflare-challenge test, else the page is admitted. -/
def classifyContent (html : String) : AdmissionVerdict :=
  if looksLikeParkedOrAd html then .rejectedParkedOrAd
  else if isCloudflareChallenge html then .rejectedChallenge
  else .admitted

/-- C2: any HTML shorter than 400 characters is rejected as parked-or-ad,
regardless of its content. -/
theorem spec_c2_short_html_parked (html : String) (h : html.length < 400) :
    classifyContent html = .rejectedParkedOrAd := by
  have hp : looksLikeParkedOrAd html = true := by
    unfold looksLikeParkedOrAd
    simp [h]
  simp [classifyContent, hp]

theorem spec_c2_short_html_parked_witness :
    ("<html><body>hello</body></html>".length < 400) ∧
    classifyContent "<html><body>hello</body></html>" = .rejectedParkedOrAd :=
  ⟨by decide, spec_c2_short_html_parked "<html><body>hello</body></html>" (by decide)⟩

/-- A page carrying both a challenge signature and the ad-placeholder
signature, longer than 400 characters. -/
def c3CounterHtml : String :=
  "Just a moment...adsense/domains/caf.js" ++ String.mk (List.replicate 400 'z')

/-- C3 counterexample: this page matches a challenge signature inside its
first 200 000 characters and exceeds 400 characters, yet the gate does not
reject it as a challenge — the parked-or-ad test wins the reason ternary. -/
theorem spec_c3_counterexample :
    isCloudflareChallenge c3CounterHtml = true ∧
    400 ≤ c3CounterHtml.length ∧
    classifyContent c3CounterHtml ≠ .rejectedChallenge :=
  ⟨by decide, by decide, by decide⟩

/-- C3 (amended): HTML matching a challenge signature within its first
200 000 characters is rejected as a challenge, provided the parked-or-ad
test (length under 400 or ad-placeholder signature) does not also fire. -/
theorem spec_c3_challenge_rejection (html : String)
    (hch : isCloudflareChallenge html = true)
    (hpark : looksLikeParkedOrAd html = false) :
    classifyContent html = .rejectedChallenge := by
  simp [classifyContent, hpark, hch]

/-- A challenge page longer than 400 characters without ad signature. -/
def c3WitnessHtml : String := "Just a moment..." ++ String.mk (List.replicate 400 'z')

theorem spec_c3_challenge_rejection_witness :
    isCloudflareChallenge c3WitnessHtml = true ∧
    looksLikeParkedOrAd c3WitnessHtml = false ∧
    classifyContent c3WitnessHtml = .rejectedChallenge :=
  ⟨by decide, by decide,
   spec_c3_challenge_rejection c3WitnessHtml (by decide) (by decide)⟩

/-! ## C5, C6 — RobotsPolicyChecker

Embedding of `checkRobotsTxt` from `src/types/cloudflare-env.d.ts`.  The
HTTP fetch is an oracle value: either a thrown error / network failure, or
a response with a status and a body.  The parser and decision are total
functions — every failure path returns `true` (allow).
-/

/-- Trim for character lists (JS `trim`). -/
def trimChars (l : List Char) : List Char :=
  ((l.dropWhile isWsChar).reverse.dropWhile isWsChar).reverse

/-- `robotsText.split("\n")`. -/
def splitOnNl : List Char → List (List Char)
  | [] => [[]]
  | c :: rest =>
    if c = '\n' then [] :: splitOnNl rest
    else
      match splitOnNl rest with
      | l :: ls => (c :: l) :: ls
      | [] => [[c]]

/-- Parser state: the active `User-agent` group and the recorded paths. -/
structure RobotsParseState where
  currentUA : List Char
  disallows : List (List Char)
  allows : List (List Char)

/-- One iteration of the line loop: `const trimmed = line.trim().toLowerCase()`,
then the `user-agent:` / `disallow:` / `allow:` prefix dispatch.  Paths are
recorded only under a group matching `*` or the lowercased user-agent, and
only when non-empty. -/
def robotsLine (ua : List Char) (st : RobotsParseState) (line : List Char) : RobotsParseState :=
  let trimmed := toLowerList (trimChars line)
  if leadsWith "user-agent:".toList trimmed then
    { st with currentUA := trimChars (trimmed.drop 11) }
  else if leadsWith "disallow:".toList trimmed then
    if st.currentUA = "*".toList ∨ st.currentUA = toLowerList ua then
      let path := trimChars (trimmed.drop 9)
      if path = [] then st else { st with disallows := st.disallows ++ [path] }
    else st
  else if leadsWith "allow:".toList trimmed then
    if st.currentUA = "*".toList ∨ st.currentUA = toLowerList ua then
      let path := trimChars (trimmed.drop 6)
      if path = [] then st else { st with allows := st.allows ++ [path] }
    else st
  else st

/-- Run the line loop over the whole robots.txt body. -/
def parseRobots (body ua : String) : RobotsParseState :=
  (splitOnNl body.toList).foldl (robotsLine ua.toList) ⟨[], [], []⟩

/-- The recorded `Disallow` path prefixes for this body and user-agent. -/
def disallowedPathsOf (body ua : String) : List (List Char) :=
  (parseRobots body ua).disallows

/-- The decision loop: return `false` on the first `disallowedPath` that is
`"/"` or a prefix of the URL path, else `true`.  The `allowedPaths` list is
parsed but never consulted. -/
def robotsBodyAllows (body ua urlPath : String) : Bool :=
  !(disallowedPathsOf body ua).any
      (fun dp => dp == "/".toList || leadsWith dp urlPath.toList)

/-- Outcome of `fetch(robotsUrl, ...)`: network failure / thrown exception,
or a settled response. -/
inductive RobotsFetch where
  | fetchError
  | fetchOk (status : Nat) (body : String)

/-- `response.ok`: status in the 2xx range. -/
def statusOk (status : Nat) : Bool := decide (200 ≤ status) && decide (status < 300)

/-- `checkRobotsTxt`: errors allow, non-2xx allows, otherwise parse and decide. -/
def checkRobotsTxt (urlPath userAgent : String) : RobotsFetch → Bool
  | .fetchError => true
  | .fetchOk status body =>
    if statusOk status then robotsBodyAllows body userAgent urlPath
    else true

/-- C5: every failure path of the robots check degrades to allow — a
network error / thrown exception, or any non-2xx response, yields `true`
(the check itself is a total function, so it never throws). -/
theorem spec_c5_fail_open (urlPath userAgent : String) (f : RobotsFetch)
    (h : f = .fetchError ∨ ∃ status body, f = .fetchOk status body ∧ statusOk status = false) :
    checkRobotsTxt urlPath userAgent f = true := by
  rcases h with h | ⟨status, body, rfl, hs⟩
  · subst h; rfl
  · simp [checkRobotsTxt, hs]

theorem spec_c5_fail_open_witness :
    checkRobotsTxt "/private/page" "TestBot" .fetchError = true ∧
    checkRobotsTxt "/private/page" "TestBot"
      (.fetchOk 404 "User-agent: *\nDisallow: /") = true :=
  ⟨spec_c5_fail_open "/private/page" "TestBot" .fetchError (Or.inl rfl),
   spec_c5_fail_open "/private/page" "TestBot"
     (.fetchOk 404 "User-agent: *\nDisallow: /")
     (Or.inr ⟨404, "User-agent: *\nDisallow: /", rfl, by decide⟩)⟩

/-- C6: with a successfully fetched body, the URL is judged disallowed
exactly when some recorded `Disallow` path (recorded under a group whose
`User-agent` is `*` or matches the requesting user-agent case-insensitively)
equals `"/"` or is a prefix of the URL's path; the recorded `Allow` paths
never influence the decision (the right-hand side mentions only the
disallow list). -/
theorem spec_c6_disallow_semantics (body ua urlPath : String) (status : Nat)
    (hok : statusOk status = true) :
    checkRobotsTxt urlPath ua (.fetchOk status body) = false ↔
      ∃ dp ∈ disallowedPathsOf body ua,
        dp = "/".toList ∨ leadsWith dp urlPath.toList = true := by
  rw [checkRobotsTxt, if_pos hok]
  unfold robotsBodyAllows
  simp [List.any_eq_true]

theorem spec_c6_disallow_semantics_witness :
    statusOk 200 = true ∧
    (checkRobotsTxt "/private/page" "TestBot"
        (.fetchOk 200 "User-agent: *\nDisallow: /private\nAllow: /private/page") = false ↔
      ∃ dp ∈ disallowedPathsOf "User-agent: *\nDisallow: /private\nAllow: /private/page" "TestBot",
        dp = "/".toList ∨ leadsWith dp "/private/page".toList = true) ∧
    checkRobotsTxt "/private/page" "TestBot"
      (.fetchOk 200 "User-agent: *\nDisallow: /private\nAllow: /private/page") = false :=
  ⟨by decide,
   spec_c6_disallow_semantics "User-agent: *\nDisallow: /private\nAllow: /private/page"
     "TestBot" "/private/page" 200 (by decide),
   by decide⟩

/-! ## C4 — redirector URL normalization

Embedding of `normalizeDuckHref` and of the browser built-ins it relies on:
`encodeURIComponent` (the wrapping direction), `URL.searchParams.get`
(`application/x-www-form-urlencoded` value decoding) and
`decodeURIComponent` (the ECMA-262 Decode algorithm, strict).
-/

/-- Uppercase hex digit, as produced by percent-encoding. -/
def hexDigitCh (n : Nat) : Char := "0123456789ABCDEF".toList.getD n '0'

/-- Hex digit value (both cases), as consumed by percent-decoding. -/
def hexVal (c : Char) : Option Nat :=
  if '0' ≤ c ∧ c ≤ '9' then some (c.toNat - 48)
  else if 'a' ≤ c ∧ c ≤ 'f' then some (c.toNat - 87)
  else if 'A' ≤ c ∧ c ≤ 'F' then some (c.toNat - 55)
  else none

/-- UTF-8 encoding of one character, arithmetically. -/
def utf8Bytes (c : Char) : List Nat :=
  if c.toNat < 128 then [c.toNat]
  else if c.toNat < 2048 then
    [192 + c.toNat / 64, 128 + c.toNat % 64]
  else if c.toNat < 65536 then
    [224 + c.toNat / 4096, 128 + c.toNat / 64 % 64, 128 + c.toNat % 64]
  else
    [240 + c.toNat / 262144, 128 + c.toNat / 4096 % 64, 128 + c.toNat / 64 % 64,
      128 + c.toNat % 64]

/-- Percent-escape of one byte: `%XY` with uppercase hex. -/
def pctEncodeByte (b : Nat) : List Char := ['%', hexDigitCh (b / 16), hexDigitCh (b % 16)]

/-- The characters `encodeURIComponent` leaves unescaped. -/
def uriUnreserved (c : Char) : Bool :=
  c.isAlpha || c.isDigit || c == '-' || c == '_' || c == '.' || c == '!' || c == '~' ||
    c == '*' || c == '\'' || c == '(' || c == ')'

/-- Percent-escapes of a byte list, concatenated. -/
def pctList : List Nat → List Char
  | [] => []
  | b :: bs => pctEncodeByte b ++ pctList bs

/-- `encodeURIComponent` on one character: unreserved characters pass
through, everything else becomes percent-escaped UTF-8 bytes. -/
def encChar (c : Char) : List Char :=
  if uriUnreserved c then [c] else pctList (utf8Bytes c)

/-- `encodeURIComponent` over a character list. -/
def encodeList : List Char → List Char
  | [] => []
  | c :: rest => encChar c ++ encodeList rest

/-- `encodeURIComponent` on strings. -/
def encodeURIComponent (s : String) : String := String.mk (encodeList s.toList)

/-- UTF-8 byte concatenation of a character list. -/
def flatUtf8 : List Char → List Nat
  | [] => []
  | c :: rest => utf8Bytes c ++ flatUtf8 rest

/-- Lenient UTF-8 decoding (invalid sequences become U+FFFD), used by the
`application/x-www-form-urlencoded` value parser.  The `Nat` argument is
recursion fuel (one unit per decoded character); the wrapper below supplies
the list length, which always suffices. -/
def utf8DLF : Nat → List Nat → List Char
  | 0, _ => []
  | fuel + 1, l =>
    match l with
    | [] => []
    | b :: rest =>
      if b < 128 then Char.ofNat b :: utf8DLF fuel rest
      else if 194 ≤ b ∧ b ≤ 223 then
        match rest with
        | b2 :: rest2 =>
          if 128 ≤ b2 ∧ b2 ≤ 191 then
            Char.ofNat ((b - 192) * 64 + (b2 - 128)) :: utf8DLF fuel rest2
          else '�' :: utf8DLF fuel (b2 :: rest2)
        | [] => ['�']
      else if 224 ≤ b ∧ b ≤ 239 then
        match rest with
        | b2 :: b3 :: rest3 =>
          if (128 ≤ b2 ∧ b2 ≤ 191) ∧ (128 ≤ b3 ∧ b3 ≤ 191) ∧
              2048 ≤ (b - 224) * 4096 + (b2 - 128) * 64 + (b3 - 128) ∧
              ((b - 224) * 4096 + (b2 - 128) * 64 + (b3 - 128) < 55296 ∨
                57343 < (b - 224) * 4096 + (b2 - 128) * 64 + (b3 - 128)) then
            Char.ofNat ((b - 224) * 4096 + (b2 - 128) * 64 + (b3 - 128)) ::
              utf8DLF fuel rest3
          else '�' :: utf8DLF fuel (b2 :: b3 :: rest3)
        | _ => ['�']
      else if 240 ≤ b ∧ b ≤ 244 then
        match rest with
        | b2 :: b3 :: b4 :: rest4 =>
          if (128 ≤ b2 ∧ b2 ≤ 191) ∧ (128 ≤ b3 ∧ b3 ≤ 191) ∧ (128 ≤ b4 ∧ b4 ≤ 191) ∧
              65536 ≤ (b - 240) * 262144 + (b2 - 128) * 4096 + (b3 - 128) * 64 + (b4 - 128) ∧
              (b - 240) * 262144 + (b2 - 128) * 4096 + (b3 - 128) * 64 + (b4 - 128) <
                1114112 then
            Char.ofNat
                ((b - 240) * 262144 + (b2 - 128) * 4096 + (b3 - 128) * 64 + (b4 - 128)) ::
              utf8DLF fuel rest4
          else '�' :: utf8DLF fuel (b2 :: b3 :: b4 :: rest4)
        | _ => ['�']
      else '�' :: utf8DLF fuel rest

/-- Lenient UTF-8 decoding of a byte list. -/
def utf8DecodeLenient (l : List Nat) : List Char := utf8DLF l.length l

/-- Byte expansion step of `application/x-www-form-urlencoded` parsing:
`+` is a space, `%XY` with two hex digits is a raw byte (a malformed `%`
stays literal), any other character contributes its UTF-8 bytes. -/
def formBytes : List Char → List Nat
  | [] => []
  | c :: rest =>
    if c = '%' then
      match rest with
      | h1 :: h2 :: rest2 =>
        match hexVal h1, hexVal h2 with
        | some a, some b => (16 * a + b) :: formBytes rest2
        | _, _ => utf8Bytes '%' ++ formBytes (h1 :: h2 :: rest2)
      | [h1] => utf8Bytes '%' ++ formBytes [h1]
      | [] => utf8Bytes '%'
    else if c = '+' then 32 :: formBytes rest
    else utf8Bytes c ++ formBytes rest

/-- `URLSearchParams` value decoding. -/
def formDecodeValue (v : List Char) : List Char := utf8DecodeLenient (formBytes v)

/-- Split a character list on a separator character (JS `split`). -/
def splitOnChar (sep : Char) : List Char → List (List Char)
  | [] => [[]]
  | c :: rest =>
    if c = sep then [] :: splitOnChar sep rest
    else
      match splitOnChar sep rest with
      | l :: ls => (c :: l) :: ls
      | [] => [[c]]

/-- The query of a URL string: everything after the first `?`, up to a `#`. -/
def queryPart (u : List Char) : List Char :=
  match u.dropWhile (fun c => c != '?') with
  | [] => []
  | _ :: rest => rest.takeWhile (fun c => c != '#')

/-- Key of one `key=value` segment. -/
def pairKey (pair : List Char) : List Char := pair.takeWhile (fun c => c != '=')

/-- Value of one `key=value` segment. -/
def pairValue (pair : List Char) : List Char := (pair.dropWhile (fun c => c != '=')).drop 1

/-- `new URL(u).searchParams.get(name)`: first matching pair's decoded
value (empty segments are skipped, keys and values are form-decoded). -/
def getSearchParam (name : List Char) (u : List Char) : Option (List Char) :=
  ((splitOnChar '&' (queryPart u)).filter (fun p => p ≠ [])).findSome? fun pair =>
    if formDecodeValue (pairKey pair) = name then some (formDecodeValue (pairValue pair))
    else none

/-- The ECMA-262 Decode algorithm behind `decodeURIComponent`: literal
characters are copied; a `%XY` escape is decoded, with continuation escapes
required immediately for multi-byte sequences; malformed escapes or invalid
sequences fail (the JS `URIError`). -/
def decURIF : Nat → List Char → Option (List Char)
  | 0, _ => some []
  | fuel + 1, l =>
    match l with
    | [] => some []
    | c :: rest =>
    if c = '%' then
      match rest with
      | h1 :: h2 :: rest2 =>
        match hexVal h1, hexVal h2 with
        | some a, some b =>
          if 16 * a + b < 128 then
            (decURIF fuel rest2).map (fun tail => Char.ofNat (16 * a + b) :: tail)
          else if 194 ≤ 16 * a + b ∧ 16 * a + b ≤ 223 then
            match rest2 with
            | '%' :: g1 :: g2 :: rest3 =>
              match hexVal g1, hexVal g2 with
              | some a2, some b2 =>
                if 128 ≤ 16 * a2 + b2 ∧ 16 * a2 + b2 ≤ 191 then
                  (decURIF fuel rest3).map
                    (fun tail =>
                      Char.ofNat ((16 * a + b - 192) * 64 + (16 * a2 + b2 - 128)) :: tail)
                else none
              | _, _ => none
            | _ => none
          else if 224 ≤ 16 * a + b ∧ 16 * a + b ≤ 239 then
            match rest2 with
            | '%' :: g1 :: g2 :: '%' :: g3 :: g4 :: rest3 =>
              match hexVal g1, hexVal g2, hexVal g3, hexVal g4 with
              | some a2, some b2, some a3, some b3 =>
                if (128 ≤ 16 * a2 + b2 ∧ 16 * a2 + b2 ≤ 191) ∧
                    (128 ≤ 16 * a3 + b3 ∧ 16 * a3 + b3 ≤ 191) ∧
                    2048 ≤ (16 * a + b - 224) * 4096 + (16 * a2 + b2 - 128) * 64 +
                      (16 * a3 + b3 - 128) ∧
                    ((16 * a + b - 224) * 4096 + (16 * a2 + b2 - 128) * 64 +
                        (16 * a3 + b3 - 128) < 55296 ∨
                      57343 < (16 * a + b - 224) * 4096 + (16 * a2 + b2 - 128) * 64 +
                        (16 * a3 + b3 - 128)) then
                  (decURIF fuel rest3).map
                    (fun tail =>
                      Char.ofNat ((16 * a + b - 224) * 4096 + (16 * a2 + b2 - 128) * 64 +
                        (16 * a3 + b3 - 128)) :: tail)
                else none
              | _, _, _, _ => none
            | _ => none
          else if 240 ≤ 16 * a + b ∧ 16 * a + b ≤ 244 then
            match rest2 with
            | '%' :: g1 :: g2 :: '%' :: g3 :: g4 :: '%' :: g5 :: g6 :: rest3 =>
              match hexVal g1, hexVal g2, hexVal g3, hexVal g4, hexVal g5, hexVal g6 with
              | some a2, some b2, some a3, some b3, some a4, some b4 =>
                if (128 ≤ 16 * a2 + b2 ∧ 16 * a2 + b2 ≤ 191) ∧
                    (128 ≤ 16 * a3 + b3 ∧ 16 * a3 + b3 ≤ 191) ∧
                    (128 ≤ 16 * a4 + b4 ∧ 16 * a4 + b4 ≤ 191) ∧
                    65536 ≤ (16 * a + b - 240) * 262144 + (16 * a2 + b2 - 128) * 4096 +
                      (16 * a3 + b3 - 128) * 64 + (16 * a4 + b4 - 128) ∧
                    (16 * a + b - 240) * 262144 + (16 * a2 + b2 - 128) * 4096 +
                      (16 * a3 + b3 - 128) * 64 + (16 * a4 + b4 - 128) < 1114112 then
                  (decURIF fuel rest3).map
                    (fun tail =>
                      Char.ofNat ((16 * a + b - 240) * 262144 + (16 * a2 + b2 - 128) * 4096 +
                        (16 * a3 + b3 - 128) * 64 + (16 * a4 + b4 - 128)) :: tail)
                else none
              | _, _, _, _, _, _ => none
            | _ => none
          else none
        | _, _ => none
      | _ => none
    else (decURIF fuel rest).map (fun tail => c :: tail)

/-- `decodeURIComponent` on a character list. -/
def decodeURIChars (l : List Char) : Option (List Char) := decURIF l.length l

/-- Model of `new URL(path, "https://html.duckduckgo.com").toString()` for
the root-relative and protocol-relative references the SERP produces. -/
def resolveAgainstDuck (l : List Char) : List Char :=
  if leadsWith "//".toList l then "https:".toList ++ l
  else "https://html.duckduckgo.com".toList ++ l

/-- `normalizeDuckHref`: resolve a leading-slash href against the search
origin; if the candidate is a `duckduckgo.com/l/?` redirector, read its
`uddg` query parameter and, when present and non-empty, return
`decodeURIComponent(uddg)` — leaving the candidate as-is if decoding
throws.  Otherwise return the candidate unchanged. -/
def normalizeDuckHref (inputHref : String) : String :=
  let c0 := inputHref.toList
  let c1 := if leadsWith "/".toList c0 then resolveAgainstDuck c0 else c0
  if occursIn "duckduckgo.com/l/?".toList c1 || leadsWith "/l/?".toList c1 then
    match getSearchParam "uddg".toList c1 with
    | some uddg =>
      if uddg ≠ [] then
        match decodeURIChars uddg with
        | some decoded => String.mk decoded
        | none => String.mk c1
      else String.mk c1
    | none => String.mk c1
  else String.mk c1

/-- Wrapping a destination as a DuckDuckGo redirector link: the destination
is percent-encoded into the `uddg` query parameter. -/
def wrapDuck (d : String) : String :=
  "https://duckduckgo.com/l/?uddg=" ++ encodeURIComponent d

/-- The candidate filter regex `/^https?:\/\//i`. -/
def httpMatch (s : String) : Bool :=
  leadsWith "http://".toList (toLowerList s.toList) ||
    leadsWith "https://".toList (toLowerList s.toList)

/-! ### Round-trip lemmas for the encoding chain -/

theorem char_toNat_lt (c : Char) : c.toNat < 1114112 := by
  have hv : c.toNat < 55296 ∨ (57343 < c.toNat ∧ c.toNat < 1114112) := c.valid
  omega

theorem utf8Bytes_lt_256 (c : Char) : ∀ b ∈ utf8Bytes c, b < 256 := by
  intro b hb
  have hlt := char_toNat_lt c
  unfold utf8Bytes at hb
  by_cases h1 : c.toNat < 128
  · simp only [h1, if_true, List.mem_singleton] at hb
    omega
  · by_cases h2 : c.toNat < 2048
    · simp only [h1, h2, if_true, if_false, List.mem_cons, List.mem_singleton,
        List.not_mem_nil, or_false] at hb
      rcases hb with hb | hb <;> omega
    · by_cases h3 : c.toNat < 65536
      · simp only [h1, h2, h3, if_true, if_false, List.mem_cons, List.mem_singleton,
          List.not_mem_nil, or_false] at hb
        rcases hb with hb | hb | hb <;> omega
      · simp only [h1, h2, h3, if_false, List.mem_cons, List.not_mem_nil, or_false] at hb
        rcases hb with hb | hb | hb | hb <;> omega

theorem hexVal_hexDigitCh (n : Nat) (h : n < 16) : hexVal (hexDigitCh n) = some n := by
  interval_cases n <;> decide

theorem uriUnreserved_hexDigitCh (n : Nat) (h : n < 16) : uriUnreserved (hexDigitCh n) = true := by
  interval_cases n <;> decide

theorem pctList_alphabet (bs : List Nat) (hlt : ∀ b ∈ bs, b < 256) :
    ∀ x ∈ pctList bs, uriUnreserved x = true ∨ x = '%' := by
  induction bs with
  | nil => intro x hx; exact absurd hx (List.not_mem_nil x)
  | cons b bs' ih =>
    intro x hx
    have hb : b < 256 := hlt b (List.mem_cons_self b bs')
    rw [pctList, List.mem_append] at hx
    rcases hx with hx | hx
    · simp only [pctEncodeByte, List.mem_cons, List.not_mem_nil, or_false] at hx
      rcases hx with hx | hx | hx
      · exact Or.inr hx
      · exact Or.inl (hx ▸ uriUnreserved_hexDigitCh (b / 16) (by omega))
      · exact Or.inl (hx ▸ uriUnreserved_hexDigitCh (b % 16) (by omega))
    · exact ih (fun y hy => hlt y (List.mem_cons_of_mem b hy)) x hx

theorem encChar_alphabet (c : Char) :
    ∀ x ∈ encChar c, uriUnreserved x = true ∨ x = '%' := by
  intro x hx
  unfold encChar at hx
  by_cases hu : uriUnreserved c
  · simp only [hu, if_true, List.mem_singleton] at hx
    exact Or.inl (hx ▸ hu)
  · simp only [hu, if_false, ite_false] at hx
    exact pctList_alphabet (utf8Bytes c) (utf8Bytes_lt_256 c) x hx

theorem encodeList_alphabet (l : List Char) :
    ∀ x ∈ encodeList l, uriUnreserved x = true ∨ x = '%' := by
  induction l with
  | nil => intro x hx; exact absurd hx (List.not_mem_nil x)
  | cons c rest ih =>
    intro x hx
    rw [encodeList, List.mem_append] at hx
    rcases hx with hx | hx
    · exact encChar_alphabet c x hx
    · exact ih x hx

theorem encodeList_not_mem (l : List Char) (c₀ : Char)
    (h1 : uriUnreserved c₀ = false) (h2 : c₀ ≠ '%') : c₀ ∉ encodeList l := by
  intro hmem
  rcases encodeList_alphabet l c₀ hmem with h | h
  · rw [h1] at h; exact Bool.false_ne_true h
  · exact h2 h

theorem uriUnreserved_ne (c c₀ : Char) (hc : uriUnreserved c = true)
    (h0 : uriUnreserved c₀ = false) : c ≠ c₀ := by
  intro h
  rw [h, h0] at hc
  exact Bool.false_ne_true hc

theorem formBytes_cons_plain (c : Char) (rest : List Char)
    (hpct : ¬ c = '%') (hplus : ¬ c = '+') :
    formBytes (c :: rest) = utf8Bytes c ++ formBytes rest := by
  rw [formBytes.eq_def]
  simp only [hpct, hplus, if_false, ite_false]

theorem formBytes_pct_hex (h1 h2 : Char) (t : List Char) (a b : Nat)
    (e1 : hexVal h1 = some a) (e2 : hexVal h2 = some b) :
    formBytes ('%' :: h1 :: h2 :: t) = (16 * a + b) :: formBytes t := by
  rw [formBytes.eq_def]
  simp only [e1, e2, if_true, ite_true, if_pos rfl]

theorem formBytes_pct_run (bs : List Nat) (tail : List Char)
    (hlt : ∀ b ∈ bs, b < 256) :
    formBytes (pctList bs ++ tail) = bs ++ formBytes tail := by
  induction bs with
  | nil => simp [pctList]
  | cons b bs' ih =>
    have hb : b < 256 := hlt b (List.mem_cons_self b bs')
    have htail : ∀ x ∈ bs', x < 256 := fun x hx => hlt x (List.mem_cons_of_mem b hx)
    rw [pctList, List.append_assoc]
    show formBytes (('%' :: hexDigitCh (b / 16) :: hexDigitCh (b % 16) :: []) ++
        (pctList bs' ++ tail)) = (b :: bs') ++ formBytes tail
    rw [List.cons_append, List.cons_append, List.cons_append, List.nil_append]
    rw [formBytes_pct_hex _ _ _ _ _ (hexVal_hexDigitCh (b / 16) (by omega))
      (hexVal_hexDigitCh (b % 16) (by omega))]
    rw [ih htail]
    have hbb : 16 * (b / 16) + b % 16 = b := by omega
    rw [hbb, List.cons_append]

theorem formBytes_encodeList (l : List Char) (tail : List Char) :
    formBytes (encodeList l ++ tail) = flatUtf8 l ++ formBytes tail := by
  induction l with
  | nil => simp [encodeList, flatUtf8]
  | cons c rest ih =>
    rw [encodeList, flatUtf8, List.append_assoc]
    by_cases hu : uriUnreserved c
    · rw [encChar, if_pos hu, List.singleton_append]
      have hpct : ¬ c = '%' := uriUnreserved_ne c '%' hu (by decide)
      have hplus : ¬ c = '+' := uriUnreserved_ne c '+' hu (by decide)
      rw [formBytes_cons_plain c _ hpct hplus, ih, List.append_assoc]
    · rw [encChar, if_neg hu]
      rw [formBytes_pct_run (utf8Bytes c) (encodeList rest ++ tail) (utf8Bytes_lt_256 c)]
      rw [ih, List.append_assoc]

theorem utf8Bytes_ne_nil (c : Char) : utf8Bytes c ≠ [] := by
  unfold utf8Bytes
  by_cases h1 : c.toNat < 128
  · simp [h1]
  · by_cases h2 : c.toNat < 2048
    · simp [h1, h2]
    · by_cases h3 : c.toNat < 65536 <;> simp [h1, h2, h3]

theorem utf8DLF_bytes (fuel : Nat) (c : Char) (rest : List Nat) :
    utf8DLF (fuel + 1) (utf8Bytes c ++ rest) = c :: utf8DLF fuel rest := by
  have hvalid : c.toNat < 55296 ∨ (57343 < c.toNat ∧ c.toNat < 1114112) := c.valid
  by_cases h1 : c.toNat < 128
  · rw [utf8Bytes, if_pos h1, List.singleton_append, utf8DLF.eq_def]
    simp only [h1, if_true, ite_true]
    rw [Char.ofNat_toNat]
  · by_cases h2 : c.toNat < 2048
    · rw [utf8Bytes, if_neg h1, if_pos h2, List.cons_append, List.cons_append,
        List.nil_append]
      have hA : ¬ (192 + c.toNat / 64 < 128) := by omega
      have hB : 194 ≤ 192 + c.toNat / 64 ∧ 192 + c.toNat / 64 ≤ 223 := ⟨by omega, by omega⟩
      have hC : 128 ≤ 128 + c.toNat % 64 ∧ 128 + c.toNat % 64 ≤ 191 := ⟨by omega, by omega⟩
      have hval : (192 + c.toNat / 64 - 192) * 64 + (128 + c.toNat % 64 - 128) = c.toNat := by
        omega
      rw [utf8DLF.eq_def]
      simp only [hA, hB, hC, hval, if_true, if_false, ite_true, ite_false, and_self]
      rw [Char.ofNat_toNat]
    · by_cases h3 : c.toNat < 65536
      · rw [utf8Bytes, if_neg h1, if_neg h2, if_pos h3, List.cons_append, List.cons_append,
          List.cons_append, List.nil_append]
        have hA : ¬ (224 + c.toNat / 4096 < 128) := by omega
        have hB : ¬ (194 ≤ 224 + c.toNat / 4096 ∧ 224 + c.toNat / 4096 ≤ 223) := by omega
        have hC : 224 ≤ 224 + c.toNat / 4096 ∧ 224 + c.toNat / 4096 ≤ 239 :=
          ⟨by omega, by omega⟩
        have hval : (224 + c.toNat / 4096 - 224) * 4096 + (128 + c.toNat / 64 % 64 - 128) * 64 +
            (128 + c.toNat % 64 - 128) = c.toNat := by omega
        have hD : (128 ≤ 128 + c.toNat / 64 % 64 ∧ 128 + c.toNat / 64 % 64 ≤ 191) ∧
            (128 ≤ 128 + c.toNat % 64 ∧ 128 + c.toNat % 64 ≤ 191) ∧
            2048 ≤ (224 + c.toNat / 4096 - 224) * 4096 + (128 + c.toNat / 64 % 64 - 128) * 64 +
              (128 + c.toNat % 64 - 128) ∧
            ((224 + c.toNat / 4096 - 224) * 4096 + (128 + c.toNat / 64 % 64 - 128) * 64 +
                (128 + c.toNat % 64 - 128) < 55296 ∨
              57343 < (224 + c.toNat / 4096 - 224) * 4096 + (128 + c.toNat / 64 % 64 - 128) * 64 +
                (128 + c.toNat % 64 - 128)) := by
          refine ⟨⟨by omega, by omega⟩, ⟨by omega, by omega⟩, by omega, ?_⟩
          rw [hval]
          omega
        have hF : 2048 ≤ c.toNat ∧ (c.toNat < 55296 ∨ 57343 < c.toNat) :=
          ⟨by omega, by omega⟩
        rw [utf8DLF.eq_def]
        simp only [hA, hB, hC, hD, hF, hval, if_true, if_false, ite_true, ite_false,
          and_self, true_and]
        rw [Char.ofNat_toNat]
      · rw [utf8Bytes, if_neg h1, if_neg h2, if_neg h3, List.cons_append, List.cons_append,
          List.cons_append, List.cons_append, List.nil_append]
        have h4 : c.toNat < 1114112 := char_toNat_lt c
        have hA : ¬ (240 + c.toNat / 262144 < 128) := by omega
        have hB : ¬ (194 ≤ 240 + c.toNat / 262144 ∧ 240 + c.toNat / 262144 ≤ 223) := by omega
        have hC : ¬ (224 ≤ 240 + c.toNat / 262144 ∧ 240 + c.toNat / 262144 ≤ 239) := by omega
        have hE : 240 ≤ 240 + c.toNat / 262144 ∧ 240 + c.toNat / 262144 ≤ 244 :=
          ⟨by omega, by omega⟩
        have hval : (240 + c.toNat / 262144 - 240) * 262144 +
            (128 + c.toNat / 4096 % 64 - 128) * 4096 + (128 + c.toNat / 64 % 64 - 128) * 64 +
            (128 + c.toNat % 64 - 128) = c.toNat := by omega
        have hD : (128 ≤ 128 + c.toNat / 4096 % 64 ∧ 128 + c.toNat / 4096 % 64 ≤ 191) ∧
            (128 ≤ 128 + c.toNat / 64 % 64 ∧ 128 + c.toNat / 64 % 64 ≤ 191) ∧
            (128 ≤ 128 + c.toNat % 64 ∧ 128 + c.toNat % 64 ≤ 191) ∧
            65536 ≤ (240 + c.toNat / 262144 - 240) * 262144 +
              (128 + c.toNat / 4096 % 64 - 128) * 4096 + (128 + c.toNat / 64 % 64 - 128) * 64 +
              (128 + c.toNat % 64 - 128) ∧
            (240 + c.toNat / 262144 - 240) * 262144 + (128 + c.toNat / 4096 % 64 - 128) * 4096 +
              (128 + c.toNat / 64 % 64 - 128) * 64 + (128 + c.toNat % 64 - 128) < 1114112 := by
          refine ⟨⟨by omega, by omega⟩, ⟨by omega, by omega⟩, ⟨by omega, by omega⟩, ?_, ?_⟩ <;>
            rw [hval] <;> omega
        have hF : 65536 ≤ c.toNat ∧ c.toNat < 1114112 := ⟨by omega, h4⟩
        rw [utf8DLF.eq_def]
        simp only [hA, hB, hC, hD, hE, hF, hval, if_true, if_false, ite_true, ite_false,
          and_self, true_and]
        rw [Char.ofNat_toNat]

theorem utf8DLF_flat (l : List Char) : ∀ fuel, (flatUtf8 l).length ≤ fuel →
    utf8DLF fuel (flatUtf8 l) = l := by
  induction l with
  | nil => intro fuel _; cases fuel <;> rfl
  | cons c rest ih =>
    intro fuel hf
    have hpos : 1 ≤ (utf8Bytes c).length := by
      cases hb : utf8Bytes c with
      | nil => exact absurd hb (utf8Bytes_ne_nil c)
      | cons x xs => simp
    rw [flatUtf8] at hf ⊢
    rw [List.length_append] at hf
    obtain ⟨f, rfl⟩ : ∃ f, fuel = f + 1 := by
      cases fuel with
      | zero => exact absurd hf (by omega)
      | succ f => exact ⟨f, rfl⟩
    rw [utf8DLF_bytes]
    rw [ih f (by omega)]

theorem utf8DecodeLenient_flatUtf8 (l : List Char) :
    utf8DecodeLenient (flatUtf8 l) = l :=
  utf8DLF_flat l _ le_rfl

theorem formDecodeValue_encodeList (l : List Char) :
    formDecodeValue (encodeList l) = l := by
  unfold formDecodeValue
  have h := formBytes_encodeList l []
  rw [List.append_nil] at h
  rw [h]
  show utf8DecodeLenient (flatUtf8 l ++ []) = l
  rw [List.append_nil, utf8DecodeLenient_flatUtf8]

theorem decURIF_no_pct (l : List Char) : ∀ fuel, l.length ≤ fuel → '%' ∉ l →
    decURIF fuel l = some l := by
  induction l with
  | nil => intro fuel _ _; cases fuel <;> rfl
  | cons c rest ih =>
    intro fuel hf h
    simp only [List.mem_cons, not_or] at h
    have hc : ¬ c = '%' := fun hc => h.1 hc.symm
    obtain ⟨f, rfl⟩ : ∃ f, fuel = f + 1 := by
      cases fuel with
      | zero => exact absurd hf (by simp)
      | succ f => exact ⟨f, rfl⟩
    rw [decURIF.eq_def]
    simp only [hc, if_false, ite_false]
    rw [ih f (by simpa using hf) h.2]
    rfl

theorem decodeURIChars_no_pct (l : List Char) (h : '%' ∉ l) :
    decodeURIChars l = some l :=
  decURIF_no_pct l _ le_rfl h

/-! ### Scanning helpers for the query-parameter extraction -/

theorem dropWhile_append_all (p : Char → Bool) (pre l : List Char)
    (h : ∀ c ∈ pre, p c = true) : (pre ++ l).dropWhile p = l.dropWhile p := by
  induction pre with
  | nil => rfl
  | cons c rest ih =>
    rw [List.cons_append, List.dropWhile_cons, if_pos (h c (List.mem_cons_self c rest))]
    exact ih (fun x hx => h x (List.mem_cons_of_mem c hx))

theorem dropWhile_cons_stop (p : Char → Bool) (x : Char) (l : List Char)
    (hx : p x = false) : (x :: l).dropWhile p = x :: l := by
  rw [List.dropWhile_cons, if_neg (by simp [hx])]

theorem takeWhile_append_stop (p : Char → Bool) (pre : List Char) (x : Char) (l : List Char)
    (h : ∀ c ∈ pre, p c = true) (hx : p x = false) :
    (pre ++ x :: l).takeWhile p = pre := by
  induction pre with
  | nil =>
    rw [List.nil_append, List.takeWhile_cons, if_neg (by simp [hx])]
  | cons c rest ih =>
    rw [List.cons_append, List.takeWhile_cons, if_pos (h c (List.mem_cons_self c rest))]
    rw [ih (fun y hy => h y (List.mem_cons_of_mem c hy))]

theorem dropWhile_append_stop (p : Char → Bool) (pre : List Char) (x : Char) (l : List Char)
    (h : ∀ c ∈ pre, p c = true) (hx : p x = false) :
    (pre ++ x :: l).dropWhile p = x :: l := by
  rw [dropWhile_append_all p pre _ h, dropWhile_cons_stop p x l hx]

theorem splitOnChar_no_sep (sep : Char) (l : List Char) (h : ∀ c ∈ l, c ≠ sep) :
    splitOnChar sep l = [l] := by
  induction l with
  | nil => rfl
  | cons c rest ih =>
    rw [splitOnChar, if_neg (h c (List.mem_cons_self c rest))]
    rw [ih (fun x hx => h x (List.mem_cons_of_mem c hx))]

/-- Reading the `uddg` parameter of the wrapped URL recovers the
form-decoded encoded destination. -/
theorem getSearchParam_wrap (enc : List Char)
    (halpha : ∀ x ∈ enc, uriUnreserved x = true ∨ x = '%') :
    getSearchParam "uddg".toList ("https://duckduckgo.com/l/?uddg=".toList ++ enc) =
      some (formDecodeValue enc) := by
  have hnotmem : ∀ c₀ : Char, uriUnreserved c₀ = false → c₀ ≠ '%' → c₀ ∉ enc := by
    intro c₀ h1 h2 hmem
    rcases halpha c₀ hmem with h | h
    · rw [h1] at h; exact Bool.false_ne_true h
    · exact h2 h
  have hq : queryPart ("https://duckduckgo.com/l/?uddg=".toList ++ enc) =
      "uddg=".toList ++ enc := by
    unfold queryPart
    have e1 : ("https://duckduckgo.com/l/?uddg=".toList : List Char) ++ enc =
        "https://duckduckgo.com/l/".toList ++ ('?' :: ("uddg=".toList ++ enc)) := by
      have e0 : ("https://duckduckgo.com/l/?uddg=".toList : List Char) =
          "https://duckduckgo.com/l/".toList ++ ('?' :: "uddg=".toList) := by decide
      rw [e0, List.append_assoc, List.cons_append]
    rw [e1, dropWhile_append_stop _ _ _ _ (by decide) (by decide)]
    show ("uddg=".toList ++ enc).takeWhile (fun c => c != '#') = "uddg=".toList ++ enc
    refine List.takeWhile_eq_self_iff.mpr ?_
    intro c hc
    rcases List.mem_append.mp hc with hc | hc
    · revert hc
      have : ∀ c ∈ "uddg=".toList, (c != '#') = true := by decide
      exact this c
    · have : c ≠ '#' := by
        intro h0
        exact hnotmem '#' (by decide) (by decide) (h0 ▸ hc)
      simpa using this
  unfold getSearchParam
  rw [hq]
  have hsingle : splitOnChar '&' ("uddg=".toList ++ enc) = ["uddg=".toList ++ enc] := by
    refine splitOnChar_no_sep '&' _ ?_
    intro c hc
    rcases List.mem_append.mp hc with hc | hc
    · revert hc
      have : ∀ c ∈ "uddg=".toList, c ≠ '&' := by decide
      exact this c
    · intro h0
      exact hnotmem '&' (by decide) (by decide) (h0 ▸ hc)
  rw [hsingle]
  have hne : ("uddg=".toList ++ enc) ≠ [] := by simp
  rw [List.filter_cons, if_pos (by simp)]
  rw [List.filter_nil]
  have hkey : pairKey ("uddg=".toList ++ enc) = "uddg".toList := by
    unfold pairKey
    have e2 : ("uddg=".toList : List Char) ++ enc = "uddg".toList ++ ('=' :: enc) := by
      have e0 : ("uddg=".toList : List Char) = "uddg".toList ++ ('=' :: []) := by decide
      rw [e0, List.append_assoc, List.cons_append, List.nil_append]
    rw [e2, takeWhile_append_stop _ _ _ _ (by decide) (by decide)]
  have hval : pairValue ("uddg=".toList ++ enc) = enc := by
    unfold pairValue
    have e2 : ("uddg=".toList : List Char) ++ enc = "uddg".toList ++ ('=' :: enc) := by
      have e0 : ("uddg=".toList : List Char) = "uddg".toList ++ ('=' :: []) := by decide
      rw [e0, List.append_assoc, List.cons_append, List.nil_append]
    rw [e2, dropWhile_append_stop _ _ _ _ (by decide) (by decide), List.drop_one,
      List.tail_cons]
  rw [List.findSome?_cons]
  rw [hkey, hval]
  rw [if_pos (by decide)]

/-- C4 counterexample: wrapping the absolute URL
`https://example.com/a%20b` into the redirector and normalizing does not
restore it — `decodeURIComponent` is applied a second time on top of the
query-parameter decoding, so the embedded `%20` collapses to a space. -/
theorem spec_c4_counterexample :
    httpMatch "https://example.com/a%20b" = true ∧
    normalizeDuckHref (wrapDuck "https://example.com/a%20b") ≠ "https://example.com/a%20b" ∧
    normalizeDuckHref (wrapDuck "https://example.com/a%20b") = "https://example.com/a b" :=
  ⟨by decide, by decide, by decide⟩

/-- C4 (amended): for every absolute http(s) destination URL that contains
no `%` character, wrapping it as a DuckDuckGo redirector link (percent-
encoding it into the `uddg` parameter) and normalizing with
`normalizeDuckHref` restores the original URL verbatim. -/
theorem spec_c4_roundtrip (d : String) (hhttp : httpMatch d = true)
    (hp : '%' ∉ d.toList) : normalizeDuckHref (wrapDuck d) = d := by
  have hwl : (wrapDuck d).toList =
      "https://duckduckgo.com/l/?uddg=".toList ++ encodeList d.toList := rfl
  have hslash : leadsWith "/".toList
      ("https://duckduckgo.com/l/?uddg=".toList ++ encodeList d.toList) = false := by
    have e1 : ("/".toList : List Char) = ['/'] := by decide
    have e2 : ("https://duckduckgo.com/l/?uddg=".toList : List Char) ++ encodeList d.toList =
        'h' :: ("ttps://duckduckgo.com/l/?uddg=".toList ++ encodeList d.toList) := by
      have e0 : ("https://duckduckgo.com/l/?uddg=".toList : List Char) =
          'h' :: "ttps://duckduckgo.com/l/?uddg=".toList := by decide
      rw [e0, List.cons_append]
    rw [e1, e2, leadsWith]
    simp
  have hocc : occursIn "duckduckgo.com/l/?".toList
      ("https://duckduckgo.com/l/?uddg=".toList ++ encodeList d.toList) = true := by
    have e3 : ("https://duckduckgo.com/l/?uddg=".toList : List Char) ++ encodeList d.toList =
        "https://".toList ++ ("duckduckgo.com/l/?".toList ++
          ("uddg=".toList ++ encodeList d.toList)) := by
      have e0 : ("https://duckduckgo.com/l/?uddg=".toList : List Char) =
          "https://".toList ++ ("duckduckgo.com/l/?".toList ++ "uddg=".toList) := by decide
      rw [e0, List.append_assoc, List.append_assoc]
    rw [e3]
    exact occursIn_append_of_leadsWith _ _ _ (leadsWith_self_append _ _)
  have hne : d.toList ≠ [] := by
    intro h0
    rw [httpMatch, h0] at hhttp
    exact absurd hhttp (by decide)
  rw [normalizeDuckHref]
  simp only [hwl, hslash, Bool.false_eq_true, if_false, ite_false, hocc, Bool.true_or,
    if_true, ite_true]
  rw [getSearchParam_wrap (encodeList d.toList) (encodeList_alphabet d.toList)]
  rw [formDecodeValue_encodeList]
  simp only [ne_eq, hne, not_false_iff, if_true, ite_true]
  rw [decodeURIChars_no_pct d.toList hp]
  rfl

theorem spec_c4_roundtrip_witness :
    httpMatch "https://example.org/page" = true ∧
    '%' ∉ "https://example.org/page".toList ∧
    normalizeDuckHref (wrapDuck "https://example.org/page") = "https://example.org/page" :=
  ⟨by decide, by decide,
   spec_c4_roundtrip "https://example.org/page" (by decide) (by decide)⟩

/-! ## C7 — CandidateRanker emptiness and the NoCandidatesError path

Embedding of the `preferredCandidates` filter chain, the
`throw new Error("Failed to locate any non-ad search result links")` on an
empty result, and the outer catch that turns it into a plain-text 500. -/

/-- One extracted anchor of `rawResults`. -/
structure RawAnchor where
  href : String
  isAd : Bool

/-- The ad-network domain filter regex `/google\.com\/adsense\/domains/i`. -/
def adsDomainsMatch (s : String) : Bool :=
  occursIn "google.com/adsense/domains".toList (toLowerList s.toList)

/-- `Array.from(new Set(list))`: keep first occurrences, in order. -/
def dedupFirstAux (seen : List String) : List String → List String
  | [] => []
  | x :: rest =>
    if x ∈ seen then dedupFirstAux seen rest
    else x :: dedupFirstAux (x :: seen) rest

/-- Deduplication preserving first-seen order. -/
def dedupFirst (l : List String) : List String := dedupFirstAux [] l

/-- The `preferredCandidates` chain: drop ads, normalize, keep http(s),
drop ad-network domains, deduplicate. -/
def preferredCandidates (raw : List RawAnchor) : List String :=
  dedupFirst ((((raw.filter (fun r => !r.isAd)).map
      (fun r => normalizeDuckHref r.href)).filter httpMatch).filter
      (fun href => !adsDomainsMatch href))

/-- A plain HTTP response of the route handler. -/
structure HttpResponse where
  status : Nat
  contentType : String
  body : String
deriving DecidableEq

/-- The thrown message when no candidate survives filtering. -/
def noCandidatesMsg : String := "Failed to locate any non-ad search result links"

/-- The candidate phase: the `preferredCandidates.length === 0` check throws
(`Except.error`), otherwise the candidate list flows on. -/
def candidatePhase (raw : List RawAnchor) : Except String (List String) :=
  if preferredCandidates raw = [] then Except.error noCandidatesMsg
  else Except.ok (preferredCandidates raw)

/-- The handler around the candidate phase: a thrown error is caught by the
outer catch, producing `"Search failed: " + message` with status 500; the
page-visit phase (abstracted as `visitPhase`) runs only on `Except.ok`. -/
def ddgHandlerOutcome (raw : List RawAnchor)
    (visitPhase : List String → HttpResponse) : HttpResponse :=
  match candidatePhase raw with
  | .error msg =>
    { status := 500, contentType := "text/plain; charset=utf-8",
      body := "Search failed: " ++ msg }
  | .ok cands => visitPhase cands

/-- C7: if every raw anchor is ad-flagged, or fails the `^https?://` test
after normalization, or matches the ad-network domain pattern, then the
candidate ranking yields the empty list, the pipeline throws the
no-candidates error, and — for every possible page-visit phase — the
response is the plain-text 500 built from that message (so the page-visit
phase never runs). -/
theorem spec_c7_no_candidates (raw : List RawAnchor)
    (visitPhase : List String → HttpResponse)
    (h : ∀ r ∈ raw, r.isAd = true ∨ httpMatch (normalizeDuckHref r.href) = false ∨
      adsDomainsMatch (normalizeDuckHref r.href) = true) :
    preferredCandidates raw = [] ∧
    candidatePhase raw = Except.error noCandidatesMsg ∧
    ddgHandlerOutcome raw visitPhase =
      { status := 500, contentType := "text/plain; charset=utf-8",
        body := "Search failed: " ++ noCandidatesMsg } := by
  have hemp : preferredCandidates raw = [] := by
    unfold preferredCandidates
    have hnil : (((raw.filter (fun r => !r.isAd)).map
        (fun r => normalizeDuckHref r.href)).filter httpMatch).filter
        (fun href => !adsDomainsMatch href) = [] := by
      rw [List.eq_nil_iff_forall_not_mem]
      intro x hx
      rw [List.mem_filter] at hx
      obtain ⟨hx1, hads⟩ := hx
      rw [List.mem_filter] at hx1
      obtain ⟨hx2, hhttp⟩ := hx1
      rw [List.mem_map] at hx2
      obtain ⟨r, hr, rfl⟩ := hx2
      rw [List.mem_filter] at hr
      obtain ⟨hraw, hnad⟩ := hr
      rcases h r hraw with had | hh | ha
      · rw [had] at hnad
        exact absurd hnad (by decide)
      · rw [hh] at hhttp
        exact Bool.false_ne_true hhttp
      · rw [ha] at hads
        exact absurd hads (by decide)
    rw [hnil]
    rfl
  refine ⟨hemp, ?_, ?_⟩
  · unfold candidatePhase
    rw [if_pos hemp]
  · unfold ddgHandlerOutcome candidatePhase
    rw [if_pos hemp]

theorem spec_c7_no_candidates_witness :
    (∀ r ∈ [RawAnchor.mk "javascript:void(0)" false, RawAnchor.mk "https://x.example" true],
      r.isAd = true ∨ httpMatch (normalizeDuckHref r.href) = false ∨
        adsDomainsMatch (normalizeDuckHref r.href) = true) ∧
    preferredCandidates
      [RawAnchor.mk "javascript:void(0)" false, RawAnchor.mk "https://x.example" true] = [] ∧
    ddgHandlerOutcome
      [RawAnchor.mk "javascript:void(0)" false, RawAnchor.mk "https://x.example" true]
      (fun _ => HttpResponse.mk 200 "text/html" "page") =
      { status := 500, contentType := "text/plain; charset=utf-8",
        body := "Search failed: " ++ noCandidatesMsg } :=
  ⟨by decide,
   (spec_c7_no_candidates _ (fun _ => HttpResponse.mk 200 "text/html" "page") (by decide)).1,
   (spec_c7_no_candidates _ (fun _ => HttpResponse.mk 200 "text/html" "page") (by decide)).2.2⟩

/-! ## C8 — domain scoring and candidate ranking

Embedding of `scoreDomain` and of the ranking step
`preferredCandidates.map(url => ({url, score})).sort((a,b) => b.score - a.score).slice(0, 8)`.
The ECMAScript `sort` is stable, embedded here as an insertion sort that
never moves an element past an equal-scored one. -/

/-- Characters allowed after the first letter of a URL scheme. -/
def schemeChar (c : Char) : Bool := c.isAlpha || c.isDigit || c == '+' || c == '-' || c == '.'

/-- Strip a userinfo part: keep everything after the last `@`. -/
def afterLastAt (l : List Char) : List Char :=
  (l.reverse.takeWhile (fun c => c != '@')).reverse

/-- Model of `new URL(url).hostname.toLowerCase()`: a scheme
`[A-Za-z][A-Za-z0-9+.-]*:` is required (else the constructor throws,
`none`); `//` introduces an authority read up to `/?#`, with userinfo and
port stripped, and an empty host is a parse failure; a scheme without `//`
has an empty hostname. -/
def parseHostname (url : String) : Option String :=
  match url.toList with
  | [] => none
  | c :: rest =>
    if c.isAlpha = false then none
    else
      match (c :: rest).dropWhile schemeChar with
      | ':' :: afterColon =>
        match afterColon with
        | '/' :: '/' :: auth =>
          let authority := auth.takeWhile (fun ch => ch != '/' && ch != '?' && ch != '#')
          let host := (afterLastAt authority).takeWhile (fun ch => ch != ':')
          if host = [] then none else some (String.mk (toLowerList host))
        | _ => some ""
      | _ => none

/-- `/wikipedia|stackoverflow|github|medium|reddit|docs\./i` on the hostname. -/
def qualityMatch (hostname : String) : Bool :=
  occursIn "wikipedia".toList hostname.toList ||
  occursIn "stackoverflow".toList hostname.toList ||
  occursIn "github".toList hostname.toList ||
  occursIn "medium".toList hostname.toList ||
  occursIn "reddit".toList hostname.toList ||
  occursIn "docs.".toList hostname.toList

/-- `/facebook|twitter|instagram|tiktok|pinterest/i` on the hostname. -/
def socialMatch (hostname : String) : Bool :=
  occursIn "facebook".toList hostname.toList ||
  occursIn "twitter".toList hostname.toList ||
  occursIn "instagram".toList hostname.toList ||
  occursIn "tiktok".toList hostname.toList ||
  occursIn "pinterest".toList hostname.toList

/-- `/doubleclick|adservice|adsense|googleadservices/i` on the hostname. -/
def adTrackMatch (hostname : String) : Bool :=
  occursIn "doubleclick".toList hostname.toList ||
  occursIn "adservice".toList hostname.toList ||
  occursIn "adsense".toList hostname.toList ||
  occursIn "googleadservices".toList hostname.toList

/-- `scoreDomain`: sequential score updates of the source, `-1` when the
URL constructor throws. -/
def scoreDomain (url : String) : Int :=
  match parseHostname url with
  | none => -1
  | some hostname =>
    let s0 : Int := 0
    let s1 := if qualityMatch hostname then s0 + 3 else s0
    let s2 := if socialMatch hostname then s1 - 5 else s1
    let s3 := if adTrackMatch hostname then s2 - 10 else s2
    let s4 := if leadsWith "https://".toList url.toList then s3 + 1 else s3
    if url.length < 100 then s4 + 1 else s4

/-- The claim's description of the score: a sum of independent bonuses and
penalties, `-1` on parse failure. -/
def scoreDomainSpec (url : String) : Int :=
  match parseHostname url with
  | none => -1
  | some hostname =>
    (if qualityMatch hostname then (3 : Int) else 0) +
    (if socialMatch hostname then (-5 : Int) else 0) +
    (if adTrackMatch hostname then (-10 : Int) else 0) +
    (if leadsWith "https://".toList url.toList then (1 : Int) else 0) +
    (if url.length < 100 then (1 : Int) else 0)

/-- Stable descending insertion: walk past strictly higher scores only, so
an inserted element never passes an equal-scored one. -/
def insDesc (x : String × Int) : List (String × Int) → List (String × Int)
  | [] => [x]
  | y :: ys => if x.2 < y.2 then y :: insDesc x ys else x :: y :: ys

/-- The stable descending sort that embeds the ECMAScript
`sort((a, b) => b.score - a.score)`. -/
def sortByScoreDesc : List (String × Int) → List (String × Int)
  | [] => []
  | x :: rest => insDesc x (sortByScoreDesc rest)

/-- The ranking step: score, sort descending, take the top 8 URLs. -/
def rankedCandidates (preferred : List String) : List String :=
  ((sortByScoreDesc (preferred.map (fun u => (u, scoreDomain u)))).take 8).map Prod.fst

/-- Membership test for one score class. -/
def scoreIs (s : Int) (q : String × Int) : Bool := q.2 == s

theorem mem_insDesc (x z : String × Int) (l : List (String × Int)) :
    z ∈ insDesc x l ↔ z = x ∨ z ∈ l := by
  induction l with
  | nil => simp [insDesc]
  | cons y ys ih =>
    rw [insDesc]
    by_cases hc : x.2 < y.2
    · rw [if_pos hc]
      simp only [List.mem_cons, ih]
      tauto
    · rw [if_neg hc]
      simp [List.mem_cons]

theorem insDesc_perm (x : String × Int) (l : List (String × Int)) :
    (insDesc x l).Perm (x :: l) := by
  induction l with
  | nil => simp [insDesc]
  | cons y ys ih =>
    rw [insDesc]
    by_cases hc : x.2 < y.2
    · rw [if_pos hc]
      exact (ih.cons y).trans (List.Perm.swap x y ys)
    · rw [if_neg hc]

theorem insDesc_pairwise (x : String × Int) (l : List (String × Int))
    (hl : l.Pairwise (fun a b => b.2 ≤ a.2)) :
    (insDesc x l).Pairwise (fun a b => b.2 ≤ a.2) := by
  induction l with
  | nil => simp [insDesc]
  | cons y ys ih =>
    rw [List.pairwise_cons] at hl
    obtain ⟨hy, hys⟩ := hl
    rw [insDesc]
    by_cases hc : x.2 < y.2
    · rw [if_pos hc]
      rw [List.pairwise_cons]
      refine ⟨?_, ih hys⟩
      intro z hz
      rcases (mem_insDesc x z ys).mp hz with rfl | hz
      · omega
      · exact hy z hz
    · rw [if_neg hc]
      rw [List.pairwise_cons]
      refine ⟨?_, by rw [List.pairwise_cons]; exact ⟨hy, hys⟩⟩
      intro z hz
      rcases List.mem_cons.mp hz with rfl | hz
      · omega
      · have := hy z hz
        omega

theorem sortByScoreDesc_pairwise (l : List (String × Int)) :
    (sortByScoreDesc l).Pairwise (fun a b => b.2 ≤ a.2) := by
  induction l with
  | nil => simp [sortByScoreDesc]
  | cons x rest ih => exact insDesc_pairwise x (sortByScoreDesc rest) ih

theorem sortByScoreDesc_perm (l : List (String × Int)) :
    (sortByScoreDesc l).Perm l := by
  induction l with
  | nil => simp [sortByScoreDesc]
  | cons x rest ih =>
    exact (insDesc_perm x (sortByScoreDesc rest)).trans (ih.cons x)

theorem filter_insDesc_pos (s : Int) (x : String × Int) (l : List (String × Int))
    (hx : scoreIs s x = true) :
    (insDesc x l).filter (scoreIs s) = x :: l.filter (scoreIs s) := by
  have hxs : x.2 = s := by simpa [scoreIs] using hx
  induction l with
  | nil => simp [insDesc, List.filter_cons, hx]
  | cons y ys ih =>
    rw [insDesc]
    by_cases hc : x.2 < y.2
    · rw [if_pos hc]
      have hy : scoreIs s y = false := by
        simp only [scoreIs, beq_eq_false_iff_ne, ne_eq]
        omega
      rw [List.filter_cons, if_neg (by simp [hy]), ih, List.filter_cons,
        if_neg (by simp [hy])]
    · rw [if_neg hc]
      rw [List.filter_cons, if_pos (by simp [hx])]

theorem filter_insDesc_neg (s : Int) (x : String × Int) (l : List (String × Int))
    (hx : scoreIs s x = false) :
    (insDesc x l).filter (scoreIs s) = l.filter (scoreIs s) := by
  induction l with
  | nil => simp [insDesc, List.filter_cons, hx]
  | cons y ys ih =>
    rw [insDesc]
    by_cases hc : x.2 < y.2
    · rw [if_pos hc]
      by_cases hy : scoreIs s y = true
      · rw [List.filter_cons, if_pos (by simp [hy]), ih, List.filter_cons,
          if_pos (by simp [hy])]
      · rw [List.filter_cons, if_neg (by simpa using hy), ih, List.filter_cons,
          if_neg (by simpa using hy)]
    · rw [if_neg hc]
      rw [List.filter_cons, if_neg (by simp [hx])]

theorem sortByScoreDesc_stable (s : Int) (l : List (String × Int)) :
    (sortByScoreDesc l).filter (scoreIs s) = l.filter (scoreIs s) := by
  induction l with
  | nil => rfl
  | cons x rest ih =>
    rw [sortByScoreDesc]
    by_cases hx : scoreIs s x = true
    · rw [filter_insDesc_pos s x _ hx, ih, List.filter_cons, if_pos (by simp [hx])]
    · rw [filter_insDesc_neg s x _ (by simpa using hx), ih, List.filter_cons,
        if_neg (by simp_all)]

/-- C8: the domain score is exactly the claimed sum (+3 quality, −5 social,
−10 ad/tracking, +1 https, +1 short URL; −1 on parse failure), and the
ranking is the stable descending sort of the scored candidates truncated to
the top 8: sorted by non-increasing score, a permutation of the input, with
every score class kept in discovery order. -/
theorem spec_c8_scoring_and_ranking (url : String) (preferred : List String) :
    scoreDomain url = scoreDomainSpec url ∧
    (parseHostname url = none → scoreDomain url = -1) ∧
    (sortByScoreDesc (preferred.map (fun u => (u, scoreDomain u)))).Pairwise
      (fun a b => b.2 ≤ a.2) ∧
    (sortByScoreDesc (preferred.map (fun u => (u, scoreDomain u)))).Perm
      (preferred.map (fun u => (u, scoreDomain u))) ∧
    (∀ s : Int, (sortByScoreDesc (preferred.map (fun u => (u, scoreDomain u)))).filter
        (scoreIs s) =
      (preferred.map (fun u => (u, scoreDomain u))).filter (scoreIs s)) ∧
    rankedCandidates preferred =
      ((sortByScoreDesc (preferred.map (fun u => (u, scoreDomain u)))).take 8).map Prod.fst := by
  refine ⟨?_, ?_, sortByScoreDesc_pairwise _, sortByScoreDesc_perm _,
    fun s => sortByScoreDesc_stable s _, rfl⟩
  · unfold scoreDomain scoreDomainSpec
    cases hparse : parseHostname url with
    | none => rfl
    | some hostname =>
      by_cases h1 : qualityMatch hostname <;>
        by_cases h2 : socialMatch hostname <;>
          by_cases h3 : adTrackMatch hostname <;>
            by_cases h4 : leadsWith "https://".toList url.toList = true <;>
              by_cases h5 : url.length < 100 <;>
                simp [h1, h2, h3, h4, h5]
      all_goals (split <;> omega)
  · intro hnone
    unfold scoreDomain
    rw [hnone]

/-! ## C9 — the gather-mode worker pool

Embedding of `fetchAllWithConcurrency` as a small-step scheduler.  Workers
share the cursor `index`; claiming `const myIndex = index++` is atomic, the
awaited `worker(input)` settles at a scheduler-chosen later step, and every
settled non-null result is pushed onto `results` in completion order
(`worker(input).catch(() => null)` collapses thrown errors and nulls into a
missing outcome).  The body of one worker is summarised by the oracle
`outcome : Nat → Option R` giving each candidate index its settled result. -/

/-- Pool state: the shared cursor, the number of idle workers, the claimed
candidate indices still in flight, and the results pushed so far. -/
structure PoolState (R : Type) where
  nextIdx : Nat
  freeWorkers : Nat
  held : List Nat
  results : List R

/-- `fetchAllWithConcurrency` spawns `w` runners on the shared cursor. -/
def initPool (R : Type) (w : Nat) : PoolState R := ⟨0, w, [], []⟩

/-- One scheduler step: a free worker claims the next index (`index++`), or
one in-flight task settles, appending its non-null result. -/
inductive PoolStep (N : Nat) {R : Type} (outcome : Nat → Option R) :
    PoolState R → PoolState R → Prop
  | claim (s : PoolState R) (hfree : 0 < s.freeWorkers) (hidx : s.nextIdx < N) :
      PoolStep N outcome s
        ⟨s.nextIdx + 1, s.freeWorkers - 1, s.nextIdx :: s.held, s.results⟩
  | finish (s : PoolState R) (pre post : List Nat) (i : Nat)
      (hheld : s.held = pre ++ i :: post) :
      PoolStep N outcome s
        ⟨s.nextIdx, s.freeWorkers + 1, pre ++ post, s.results ++ (outcome i).toList⟩

/-- Reachability under the scheduler. -/
inductive PoolReaches (N : Nat) {R : Type} (outcome : Nat → Option R) :
    PoolState R → PoolState R → Prop
  | refl (s : PoolState R) : PoolReaches N outcome s s
  | tail {a b c : PoolState R} : PoolReaches N outcome a b → PoolStep N outcome b c →
      PoolReaches N outcome a c

/-- The run invariant: the cursor stays within bounds, workers are
conserved, and the results plus the in-flight outcomes are a permutation of
the outcomes of all claimed indices. -/
def PoolInv (N W : Nat) {R : Type} (outcome : Nat → Option R) (s : PoolState R) : Prop :=
  s.nextIdx ≤ N ∧ s.freeWorkers + s.held.length = W ∧
    (s.results ++ s.held.filterMap outcome).Perm
      ((List.range s.nextIdx).filterMap outcome)

theorem poolStep_inv {R : Type} {N W : Nat} {outcome : Nat → Option R}
    {s t : PoolState R} (hstep : PoolStep N outcome s t)
    (hs : PoolInv N W outcome s) : PoolInv N W outcome t := by
  obtain ⟨hidx, hcount, hperm⟩ := hs
  cases hstep with
  | claim hfree hidxlt =>
    refine ⟨?_, ?_, ?_⟩
    · show s.nextIdx + 1 ≤ N
      omega
    · show s.freeWorkers - 1 + (s.nextIdx :: s.held).length = W
      rw [List.length_cons]
      omega
    · show (s.results ++ (s.nextIdx :: s.held).filterMap outcome).Perm
        ((List.range (s.nextIdx + 1)).filterMap outcome)
      rw [List.range_succ, List.filterMap_append]
      cases ho : outcome s.nextIdx with
      | none =>
        rw [List.filterMap_cons_none ho]
        have hr : List.filterMap outcome [s.nextIdx] = [] := by
          rw [show [s.nextIdx] = s.nextIdx :: ([] : List Nat) from rfl,
            List.filterMap_cons_none ho, List.filterMap_nil]
        rw [hr, List.append_nil]
        exact hperm
      | some v =>
        rw [List.filterMap_cons_some ho]
        have hr : List.filterMap outcome [s.nextIdx] = [v] := by
          rw [show [s.nextIdx] = s.nextIdx :: ([] : List Nat) from rfl,
            List.filterMap_cons_some ho, List.filterMap_nil]
        rw [hr]
        have h1 : (s.results ++ v :: s.held.filterMap outcome).Perm
            (v :: (s.results ++ s.held.filterMap outcome)) := List.perm_middle
        have h2 : ((List.range s.nextIdx).filterMap outcome ++ [v]).Perm
            (v :: (List.range s.nextIdx).filterMap outcome) :=
          List.perm_append_singleton v _
        exact h1.trans ((hperm.cons v).trans h2.symm)
  | finish pre post i hheld =>
    refine ⟨hidx, ?_, ?_⟩
    · show s.freeWorkers + 1 + (pre ++ post).length = W
      have hlen := congrArg List.length hheld
      rw [List.length_append, List.length_cons] at hlen
      rw [List.length_append]
      omega
    · show ((s.results ++ (outcome i).toList) ++ (pre ++ post).filterMap outcome).Perm
        ((List.range s.nextIdx).filterMap outcome)
      rw [hheld, List.filterMap_append] at hperm
      rw [List.filterMap_append]
      cases ho : outcome i with
      | none =>
        rw [List.filterMap_cons_none ho] at hperm
        simpa using hperm
      | some v =>
        rw [List.filterMap_cons_some ho] at hperm
        have hL : ((s.results ++ (some v).toList) ++
            (pre.filterMap outcome ++ post.filterMap outcome)).Perm
            (v :: (s.results ++ (pre.filterMap outcome ++ post.filterMap outcome))) := by
          rw [List.append_assoc]
          show (s.results ++ ([v] ++ (pre.filterMap outcome ++ post.filterMap outcome))).Perm _
          rw [List.singleton_append]
          exact List.perm_middle
        have hR : (s.results ++
            (pre.filterMap outcome ++ v :: post.filterMap outcome)).Perm
            (v :: (s.results ++ (pre.filterMap outcome ++ post.filterMap outcome))) := by
          refine List.Perm.trans (List.Perm.append_left s.results List.perm_middle) ?_
          exact List.perm_middle
        exact hL.trans (hR.symm.trans hperm)

theorem poolReaches_inv {R : Type} {N W : Nat} {outcome : Nat → Option R}
    {s t : PoolState R} (hreach : PoolReaches N outcome s t)
    (hs : PoolInv N W outcome s) : PoolInv N W outcome t := by
  induction hreach with
  | refl => exact hs
  | tail hr hstep ih => exact poolStep_inv hstep ih

/-- C9 counterexample: with two workers and two candidates that both
succeed, a complete run of the pool can settle candidate 1 before candidate
0, producing results `[1, 0]` — not the candidate-rank order `[0, 1]`. -/
theorem spec_c9_counterexample :
    PoolReaches 2 (fun i => some i) (initPool Nat 2) ⟨2, 2, [], [1, 0]⟩ ∧
    (∀ t, ¬ PoolStep 2 (fun i => some i) (⟨2, 2, [], [1, 0]⟩ : PoolState Nat) t) ∧
    [1, 0] ≠ (List.range 2).filterMap (fun i => some i) := by
  refine ⟨?_, ?_, by decide⟩
  · have h1 : PoolStep 2 (fun i => some i) (initPool Nat 2)
        (⟨1, 1, [0], []⟩ : PoolState Nat) :=
      PoolStep.claim _ (by decide) (by decide)
    have h2 : PoolStep 2 (fun i => some i) (⟨1, 1, [0], []⟩ : PoolState Nat)
        (⟨2, 0, [1, 0], []⟩ : PoolState Nat) :=
      PoolStep.claim _ (by decide) (by decide)
    have h3 : PoolStep 2 (fun i => some i) (⟨2, 0, [1, 0], []⟩ : PoolState Nat)
        (⟨2, 1, [0], [1]⟩ : PoolState Nat) :=
      PoolStep.finish _ [] [0] 1 rfl
    have h4 : PoolStep 2 (fun i => some i) (⟨2, 1, [0], [1]⟩ : PoolState Nat)
        (⟨2, 2, [], [1, 0]⟩ : PoolState Nat) :=
      PoolStep.finish _ [] [] 0 rfl
    exact ((((PoolReaches.refl _).tail h1).tail h2).tail h3).tail h4
  · intro t hstep
    cases hstep with
    | claim hfree hidxlt => exact absurd hidxlt (by decide)
    | finish pre post i hheld => exact absurd hheld (by simp)

/-- C9 (amended): for every worker count `W ≥ 1` and every complete run of
the gather-mode pool over `N` candidates (a reachable state from which no
step is possible), the results list is a permutation of the successful
candidates' results — in particular it has exactly `K` entries when exactly
`K` candidates produce a non-null result — but its order is completion
order, not necessarily candidate-rank order. -/
theorem spec_c9_gather_results {R : Type} (N W : Nat) (outcome : Nat → Option R)
    (s : PoolState R) (hW : 1 ≤ W)
    (hreach : PoolReaches N outcome (initPool R W) s)
    (hterm : ∀ t, ¬ PoolStep N outcome s t) :
    s.results.Perm ((List.range N).filterMap outcome) ∧
    s.results.length = ((List.range N).filterMap outcome).length := by
  have hinit : PoolInv N W outcome (initPool R W) := by
    refine ⟨Nat.zero_le N, rfl, ?_⟩
    simp [initPool]
  obtain ⟨hidx, hcount, hperm⟩ := poolReaches_inv hreach hinit
  have hheld : s.held = [] := by
    cases hh : s.held with
    | nil => rfl
    | cons i tl =>
      exact absurd (PoolStep.finish s [] tl i (by rw [hh]; rfl)) (hterm _)
  have hfree : s.freeWorkers = W := by
    rw [hheld] at hcount
    simpa using hcount
  have hN : s.nextIdx = N := by
    by_contra hne
    have hlt : s.nextIdx < N := by omega
    exact absurd (PoolStep.claim s (by omega) hlt) (hterm _)
  rw [hheld, List.filterMap_nil, List.append_nil, hN] at hperm
  exact ⟨hperm, hperm.length_eq⟩

theorem spec_c9_gather_results_witness :
    1 ≤ 1 ∧
    PoolReaches 1 (fun _ => some 42) (initPool Nat 1) ⟨1, 1, [], [42]⟩ ∧
    (∀ t, ¬ PoolStep 1 (fun _ => some 42) (⟨1, 1, [], [42]⟩ : PoolState Nat) t) ∧
    ([42] : List Nat).Perm ((List.range 1).filterMap (fun _ => some 42)) ∧
    ([42] : List Nat).length = ((List.range 1).filterMap (fun _ => some 42)).length := by
  have h1 : PoolStep 1 (fun _ => some 42) (initPool Nat 1)
      (⟨1, 0, [0], []⟩ : PoolState Nat) :=
    PoolStep.claim _ (by decide) (by decide)
  have h2 : PoolStep 1 (fun _ => some 42) (⟨1, 0, [0], []⟩ : PoolState Nat)
      (⟨1, 1, [], [42]⟩ : PoolState Nat) :=
    PoolStep.finish _ [] [] 0 rfl
  have hr : PoolReaches 1 (fun _ => some 42) (initPool Nat 1) ⟨1, 1, [], [42]⟩ :=
    ((PoolReaches.refl _).tail h1).tail h2
  have ht : ∀ t, ¬ PoolStep 1 (fun _ => some 42) (⟨1, 1, [], [42]⟩ : PoolState Nat) t := by
    intro t hstep
    cases hstep with
    | claim hfree hidxlt => exact absurd hidxlt (by decide)
    | finish pre post i hheld => exact absurd hheld (by simp)
  exact ⟨le_rfl, hr, ht,
    (spec_c9_gather_results 1 1 (fun _ => some 42) ⟨1, 1, [], [42]⟩ le_rfl hr ht).1,
    (spec_c9_gather_results 1 1 (fun _ => some 42) ⟨1, 1, [], [42]⟩ le_rfl hr ht).2⟩

end DdgPipeline
